import Mathlib

/-!
Verification development for the Stardew mod installer (`src/main.py`).

Paths (zip entry names, zip file paths, folder names inside the target
folder) are modelled as lists of characters, so that the Python string
operations used by the code (`str.split(sep)`, `str.startswith`,
`os.path.basename`, `os.path.splitext`) become explicit recursive
functions on `List Char`.  Display labels produced for the UI are kept
as `String`, since the code only ever concatenates them.
-/

namespace StardewMod

/-- A filesystem/zip path, as the sequence of characters of the Python
string that carries it. -/
abbrev FPath := List Char

/-- Python `str.split(sep)` for a one-character separator: splits at every
occurrence of `sep`, keeping empty pieces, and always returns at least one
piece (`"".split(sep) == [""]`). -/
def splitOnChar (sep : Char) : FPath → List FPath
  | [] => [[]]
  | c :: cs =>
    let r := splitOnChar sep cs
    if c = sep then [] :: r
    else (c :: r.headI) :: r.tail

/-- `parts[0]` of `path.split('/')`: the first path component. -/
def topSegment (p : FPath) : FPath :=
  (splitOnChar '/' p).headI

/-- `ModInstallWorker._has_top_level_folder` (src/main.py:262-279):
empty list → `False`; otherwise split the first entry on `'/'`; if it has
more than one part, every later entry must start with `parts[0] + '/'`. -/
def hasTopLevelFolder (fileList : List FPath) : Bool :=
  match fileList with
  | [] => false
  | first :: rest =>
    let parts := splitOnChar '/' first
    if 1 < parts.length then
      rest.all (fun f => (parts.headI ++ ['/']).isPrefixOf f)
    else false

/-- `os.path.basename`: the part after the last `'/'`.  (The zip paths the
application handles come from Qt file dialogs and use `'/'` separators.) -/
def basename (p : FPath) : FPath :=
  (splitOnChar '/' p).getLastI

/-- The root part of Python `os.path.splitext`, scanning the reversed
name: drop a final `'.'`-started extension provided some character
before the last dot is not itself a dot (`splitext(".bashrc")` keeps the
whole name, `splitext("a.zip")` gives `"a"`). -/
def dropExtRev : FPath → Option FPath
  | [] => none
  | c :: cs =>
    if c = '.' then (if cs.any (fun d => d ≠ '.') then some cs else none)
    else dropExtRev cs

/-- `os.path.splitext(name)[0]` for a `name` with no directory part. -/
def splitextRoot (l : FPath) : FPath :=
  match dropExtRev l.reverse with
  | some rootRev => rootRev.reverse
  | none => l

/-- The destination decision of `ModInstallWorker.run` (src/main.py:241-254):
extract the whole archive directly into the target folder, or create a
subfolder named after the zip file and extract there. -/
inductive InstallPlan where
  | direct
  | subfolder (modName : FPath)
deriving DecidableEq

/-- The branch `ModInstallWorker.run` takes: direct extraction when
`_has_top_level_folder(file_list)`, otherwise a subfolder named
`os.path.splitext(os.path.basename(zip_path))[0]`. -/
def installPlan (zipPath : FPath) (entries : List FPath) : InstallPlan :=
  if hasTopLevelFolder entries then .direct
  else .subfolder (splitextRoot (basename zipPath))

/-- The names of the immediate subfolders of the target folder that the
installation populates: the top-level segments of the entries for a direct
extraction, the derived zip-file name otherwise. -/
def installedModFolders (zipPath : FPath) (entries : List FPath) : List FPath :=
  match installPlan zipPath entries with
  | .direct => (entries.map topSegment).dedup
  | .subfolder n => [n]

/-- The target-folder-relative paths written by the extraction: the entry
names themselves for a direct extraction, the entry names under the derived
subfolder otherwise. -/
def writtenPaths (zipPath : FPath) (entries : List FPath) : List FPath :=
  match installPlan zipPath entries with
  | .direct => entries
  | .subfolder n => entries.map (fun e => n ++ '/' :: e)

/-- The immediate subdirectories of the target folder, the one piece of
filesystem state the installer changes at that level. -/
structure FsState where
  dirs : List FPath
deriving DecidableEq

/-- Record a directory name, keeping the list duplicate-free. -/
def ensureDir (n : FPath) (ds : List FPath) : List FPath :=
  if n ∈ ds then ds else ds ++ [n]

/-- `os.makedirs(path, exist_ok=...)` restricted to one level below the
target folder: fails exactly when the directory exists and `exist_ok` is
`False`. -/
def makedirs (existOk : Bool) (n : FPath) (s : FsState) : Option FsState :=
  if n ∈ s.dirs then
    if existOk then some s else none
  else some ⟨s.dirs ++ [n]⟩

/-- The top-level directories created by `zip_ref.extractall(target)`:
one per distinct top segment of the extracted entries. -/
def extractTopDirs (entries : List FPath) (ds : List FPath) : List FPath :=
  entries.foldl (fun acc e => ensureDir (topSegment e) acc) ds

/-- `ModInstallWorker.run` over the target folder's immediate children:
the direct branch extracts every entry into the target folder; the other
branch calls `os.makedirs(target, exist_ok=True)` on the derived name and
extracts inside that subfolder (which leaves the target folder's immediate
children unchanged beyond the created subfolder).  Returns the populated
mod-folder names and the new state, or `none` on failure. -/
def installOnce (zipPath : FPath) (entries : List FPath) (s : FsState) :
    Option (List FPath × FsState) :=
  match installPlan zipPath entries with
  | .direct => some ((entries.map topSegment).dedup, ⟨extractTopDirs entries s.dirs⟩)
  | .subfolder n => (makedirs true n s).map (fun s2 => ([n], s2))

/-- The error taxonomy of the install path (spec §7). -/
inductive InstallError where
  | NotFound
  | InvalidArchive
  | ExtractionFailed
deriving DecidableEq

/-- `StardewModInstaller.install_mod` (src/main.py:583-609): report
`NotFound` when the path does not exist, `InvalidArchive` when it is not a
valid zip, and otherwise hand off to the worker; both checks happen before
any extraction, so a failed check leaves the state untouched. -/
def install_mod (pathExists isZipFile : Bool) (zipPath : FPath)
    (entries : List FPath) (s : FsState) : Option InstallError × FsState :=
  if pathExists = false then (some .NotFound, s)
  else if isZipFile = false then (some .InvalidArchive, s)
  else
    match installOnce zipPath entries s with
    | some (_, s2) => (none, s2)
    | none => (some .ExtractionFailed, s)

/-- One entry of the manifest's `UpdateKeys` list: a string (kept as a
character list so that `startswith`/`split` are list operations) or a
non-string JSON value, which `isinstance(item, str)` rejects. -/
inductive UpdateKey where
  | str (s : FPath)
  | other
deriving DecidableEq

/-- The fields of a parsed `manifest.json` that `get_mod_info` reads:
`Name` (absent when the key is missing) and `UpdateKeys` (defaulted to the
empty list when missing). -/
structure Manifest where
  name : Option String
  updateKeys : List UpdateKey

/-- What the filesystem offers at `mod_path/manifest.json`: no file, a
file `json5.load` rejects (with the exception text), or a parsed manifest. -/
inductive ManifestState where
  | absent
  | parseError (msg : String)
  | parsed (m : Manifest)

/-- Python `item.split(":")[-1]`: the part after the last colon. -/
def afterLastColon (s : FPath) : FPath :=
  (splitOnChar ':' s).getLastI

/-- The `for item in update_keys` loop of `get_mod_info`
(src/main.py:720-723): starting from `nexus_id = ""`, take the first
string item that starts with `"Nexus:"`, keep the part after its last
colon, and stop. -/
def findNexusId : List UpdateKey → FPath
  | [] => []
  | .str s :: rest =>
    if ("Nexus:".data).isPrefixOf s then afterLastColon s else findNexusId rest
  | .other :: rest => findNexusId rest

/-- `StardewModInstaller.get_mod_info` (src/main.py:701-733), taking the
mod folder's name directly (the code passes the full `mod_path` and
recovers the name with `os.path.basename`). -/
def get_mod_info (folderName : String) (ms : ManifestState) : String :=
  match ms with
  | .absent => folderName
  | .parseError msg => folderName ++ " (解析manifest失败: " ++ msg ++ ")"
  | .parsed m =>
    let nm := m.name.getD "未知名称"
    let nexusId := findNexusId m.updateKeys
    if nexusId.isEmpty then nm else nm ++ " (" ++ String.mk nexusId ++ ")"

/-- One entry of `os.listdir(mods_folder)` together with what the scan
finds at it: its name, whether it is a directory, and its manifest state
(meaningful only for directories). -/
structure FsItem where
  name : String
  isDir : Bool
  manifest : ManifestState

/-- Sort key of `mods.sort()`: folder names in Python's lexicographic
string order. -/
def byName (a b : FsItem) : Prop := a.name ≤ b.name

instance : DecidableRel byName := fun a b =>
  inferInstanceAs (Decidable (a.name ≤ b.name))

instance : IsTotal FsItem byName := ⟨fun a b => le_total a.name b.name⟩

instance : IsTrans FsItem byName := ⟨fun _ _ _ h1 h2 => le_trans h1 h2⟩

/-- `StardewModInstaller.refresh_installed_mods` (src/main.py:664-699):
filter the listing to directories, sort by name, and label each one with
`get_mod_info`.  Each produced pair is `(label, folder name)`; the code
stores `os.path.join(mods_folder, name)` alongside the label, which the
name determines.  (A directory listing has no duplicate names, so sorting
the records by name is the code's sort of the name list.) -/
def list_mods (items : List FsItem) : List (String × String) :=
  ((items.filter (fun it => it.isDir)).insertionSort byName).map
    (fun it => (get_mod_info it.name it.manifest, it.name))

/-- One selected entry of `delete_selected_mods`: whether its recorded
folder path is still a directory, and whether `shutil.rmtree` on it would
succeed. -/
structure DelEntry where
  isDir : Bool
  rmtreeOk : Bool
deriving DecidableEq

/-- The reported outcome for one selected entry. -/
inductive DeleteOutcome where
  | deleted
  | notFound
  | failed
deriving DecidableEq

/-- The body of the per-entry loop of `delete_selected_mods`
(src/main.py:770-784): an existing directory is removed (an `rmtree`
exception is caught and counted as a failure); a missing one is reported
as not found. -/
def deleteOne (e : DelEntry) : DeleteOutcome :=
  if e.isDir then (if e.rmtreeOk then .deleted else .failed) else .notFound

/-- `StardewModInstaller.delete_selected_mods` (src/main.py:740-794): the
selected entries are processed one after the other, each inside its own
`try`, so every entry gets an outcome. -/
def delete_selected_mods : List DelEntry → List DeleteOutcome
  | [] => []
  | e :: rest => deleteOne e :: delete_selected_mods rest

/-- The spec's notion of a shared top-level folder (glossary: "every entry
path begins with the same single directory component"): one slash-free
segment that every entry continues past a `'/'`. -/
def sharesTop (entries : List FPath) : Prop :=
  ∃ seg : FPath, '/' ∉ seg ∧ ∀ e ∈ entries, ∃ t, e = seg ++ '/' :: t

/-- The spec's "recognized prefix pattern" on an update-source identifier:
a string starting with `"Nexus:"`. -/
def isNexusKey : UpdateKey → Bool
  | .str s => ("Nexus:".data).isPrefixOf s
  | .other => false

/-! ### Helper lemmas -/

theorem splitOnChar_ne_nil (sep : Char) (l : FPath) : splitOnChar sep l ≠ [] := by
  cases l with
  | nil => simp [splitOnChar]
  | cons c cs => simp only [splitOnChar]; split <;> simp

theorem headI_splitOnChar (sep : Char) (l : FPath) :
    (splitOnChar sep l).headI = l.takeWhile (fun c => c ≠ sep) := by
  induction l with
  | nil => simp [splitOnChar]
  | cons c cs ih =>
    simp only [splitOnChar, List.takeWhile_cons]
    by_cases h : c = sep
    · simp [h]
    · simp [h, ih]

theorem one_lt_length_splitOnChar (sep : Char) (l : FPath) :
    1 < (splitOnChar sep l).length ↔ sep ∈ l := by
  induction l with
  | nil => simp [splitOnChar]
  | cons c cs ih =>
    simp only [splitOnChar]
    by_cases h : c = sep
    · have hpos : 0 < (splitOnChar sep cs).length :=
        List.length_pos.mpr (splitOnChar_ne_nil sep cs)
      simp only [if_pos h, List.length_cons, List.mem_cons]
      constructor
      · intro _
        exact Or.inl h.symm
      · intro _
        omega
    · have hne := splitOnChar_ne_nil sep cs
      have hlen : (splitOnChar sep cs).tail.length + 1 = (splitOnChar sep cs).length := by
        cases hr : splitOnChar sep cs with
        | nil => exact absurd hr hne
        | cons a as => simp
      simp only [if_neg h, List.length_cons, hlen, ih, List.mem_cons]
      constructor
      · exact Or.inr
      · rintro (hc | hc)
        · exact absurd hc.symm h
        · exact hc

theorem splitOnChar_append (sep : Char) (seg rest : FPath) (h : sep ∉ seg) :
    splitOnChar sep (seg ++ sep :: rest) = seg :: splitOnChar sep rest := by
  induction seg with
  | nil => simp [splitOnChar]
  | cons c cs ih =>
    have hc : c ≠ sep := fun e => h (e ▸ List.mem_cons_self c cs)
    have hcs : sep ∉ cs := fun m => h (List.mem_cons_of_mem _ m)
    simp only [List.cons_append, splitOnChar, if_neg hc, List.append_eq]
    rw [ih hcs]
    simp

theorem not_mem_headI_splitOnChar (sep : Char) (l : FPath) :
    sep ∉ (splitOnChar sep l).headI := by
  rw [headI_splitOnChar]
  intro hmem
  have := List.mem_takeWhile_imp hmem
  simp at this

theorem topSegment_append (seg t : FPath) (h : '/' ∉ seg) :
    topSegment (seg ++ '/' :: t) = seg := by
  rw [topSegment, splitOnChar_append _ _ _ h]
  rfl

theorem isPrefixOf_eq_true {l₁ l₂ : FPath} :
    l₁.isPrefixOf l₂ = true ↔ ∃ t, l₂ = l₁ ++ t := by
  induction l₁ generalizing l₂ with
  | nil => simp [List.isPrefixOf]
  | cons a as ih =>
    cases l₂ with
    | nil => simp [List.isPrefixOf]
    | cons b bs =>
      simp only [List.isPrefixOf, Bool.and_eq_true, beq_iff_eq, ih, List.cons_append,
        List.cons.injEq]
      constructor
      · rintro ⟨rfl, t, rfl⟩
        exact ⟨t, rfl, rfl⟩
      · rintro ⟨t, rfl, rfl⟩
        exact ⟨rfl, t, rfl⟩

theorem exists_takeWhile_decomp (sep : Char) (l : FPath) (h : sep ∈ l) :
    ∃ t, l = l.takeWhile (fun c => c ≠ sep) ++ sep :: t := by
  induction l with
  | nil => cases h
  | cons c cs ih =>
    by_cases hc : c = sep
    · subst hc
      exact ⟨cs, by simp⟩
    · have hcs : sep ∈ cs := by
        rcases List.mem_cons.mp h with h1 | h1
        · exact absurd h1.symm hc
        · exact h1
      obtain ⟨t, ht⟩ := ih hcs
      refine ⟨t, ?_⟩
      simp only [List.takeWhile_cons]
      rw [if_pos (by simp [hc]), List.cons_append]
      exact congrArg (List.cons c) ht

theorem dedup_eq_single {l : List FPath} {a : FPath} (hne : l ≠ [])
    (hall : ∀ x ∈ l, x = a) : l.dedup = [a] := by
  induction l with
  | nil => exact absurd rfl hne
  | cons b bs ih =>
    have hb : b = a := hall b (List.mem_cons_self b bs)
    subst hb
    cases bs with
    | nil => simp
    | cons c cs =>
      have hc : c = b := hall c (by simp)
      have hmem : b ∈ c :: cs := by
        rw [hc]
        exact List.mem_cons_self b cs
      rw [List.dedup_cons_of_mem hmem]
      exact ih (by simp) (fun x hx => hall x (List.mem_cons_of_mem _ hx))

theorem makedirs_existOk_true (n : FPath) (s : FsState) :
    ∃ s2, makedirs true n s = some s2 ∧ n ∈ s2.dirs := by
  unfold makedirs
  by_cases h : n ∈ s.dirs
  · exact ⟨s, by simp [h]⟩
  · exact ⟨⟨s.dirs ++ [n]⟩, by simp [h]⟩

theorem delete_selected_mods_eq_map (l : List DelEntry) :
    delete_selected_mods l = l.map deleteOne := by
  induction l with
  | nil => rfl
  | cons e rest ih => simp [delete_selected_mods, ih]

theorem list_mods_length (items : List FsItem) :
    (list_mods items).length = (items.filter (fun it => it.isDir)).length := by
  simp [list_mods, (List.perm_insertionSort byName _).length_eq]

theorem mem_list_mods_of_mem {items : List FsItem} {it : FsItem} (hit : it ∈ items)
    (hdir : it.isDir = true) :
    (get_mod_info it.name it.manifest, it.name) ∈ list_mods items := by
  have h1 : it ∈ items.filter (fun it => it.isDir) :=
    List.mem_filter.mpr ⟨hit, hdir⟩
  have h2 : it ∈ (items.filter (fun it => it.isDir)).insertionSort byName :=
    (List.mem_insertionSort byName).mpr h1
  exact List.mem_map_of_mem (fun it => (get_mod_info it.name it.manifest, it.name)) h2

theorem findNexusId_spec (ks : List UpdateKey) :
    (∃ s, ks.find? isNexusKey = some (.str s) ∧ findNexusId ks = afterLastColon s) ∨
    (ks.find? isNexusKey = none ∧ findNexusId ks = []) := by
  induction ks with
  | nil => exact Or.inr ⟨rfl, rfl⟩
  | cons k rest ih =>
    cases k with
    | str s =>
      by_cases hp : ("Nexus:".data).isPrefixOf s
      · exact Or.inl ⟨s, by simp [List.find?_cons, isNexusKey, hp], by simp [findNexusId, hp]⟩
      · rcases ih with ⟨s2, hf, hid⟩ | ⟨hf, hid⟩
        · exact Or.inl ⟨s2, by simp [List.find?_cons, isNexusKey, hp, hf],
            by simp [findNexusId, hp, hid]⟩
        · exact Or.inr ⟨by simp [List.find?_cons, isNexusKey, hp, hf],
            by simp [findNexusId, hp, hid]⟩
    | other =>
      rcases ih with ⟨s2, hf, hid⟩ | ⟨hf, hid⟩
      · exact Or.inl ⟨s2, by simp [List.find?_cons, isNexusKey, hf],
          by simp [findNexusId, hid]⟩
      · exact Or.inr ⟨by simp [List.find?_cons, isNexusKey, hf],
          by simp [findNexusId, hid]⟩

/-! ### Claim theorems -/

/-- C1: for a non-empty entry list in which every entry begins with the
single top-level path segment of the first entry, `run` extracts the
archive directly into the target folder, and the resulting mod folder name
is that shared segment. -/
theorem claim_C1 (zipPath first : FPath) (rest : List FPath)
    (h : ∀ e ∈ first :: rest, ∃ t, e = topSegment first ++ '/' :: t) :
    installPlan zipPath (first :: rest) = .direct ∧
    installedModFolders zipPath (first :: rest) = [topSegment first] := by
  have hseg : '/' ∉ topSegment first := not_mem_headI_splitOnChar '/' first
  obtain ⟨t0, ht0⟩ := h first (List.mem_cons_self _ _)
  have hmem : '/' ∈ first := by
    rw [ht0]
    exact List.mem_append_right _ (List.mem_cons_self _ _)
  have hlen : 1 < (splitOnChar '/' first).length :=
    (one_lt_length_splitOnChar '/' first).mpr hmem
  have htop : hasTopLevelFolder (first :: rest) = true := by
    simp only [hasTopLevelFolder, if_pos hlen, List.all_eq_true]
    intro f hf
    obtain ⟨t, ht⟩ := h f (List.mem_cons_of_mem _ hf)
    rw [isPrefixOf_eq_true]
    exact ⟨t, by rw [ht]; simp [topSegment]⟩
  have hplan : installPlan zipPath (first :: rest) = .direct := by
    simp [installPlan, htop]
  refine ⟨hplan, ?_⟩
  rw [installedModFolders, hplan]
  apply dedup_eq_single (by simp)
  intro x hx
  obtain ⟨e, he, rfl⟩ := List.mem_map.mp hx
  obtain ⟨t, ht⟩ := h e he
  rw [ht, topSegment_append _ _ hseg]

/-- C1 witness: a two-entry archive under a shared `CoolMod/` folder is
extracted directly and yields the mod folder `CoolMod`. -/
theorem claim_C1_witness :
    installPlan ("CoolMod.zip".data)
        ["CoolMod/a.json".data, "CoolMod/manifest.json".data] = .direct ∧
    installedModFolders ("CoolMod.zip".data)
        ["CoolMod/a.json".data, "CoolMod/manifest.json".data]
      = [topSegment ("CoolMod/a.json".data)] := by
  apply claim_C1
  intro e he
  simp only [List.mem_cons, List.not_mem_nil, or_false] at he
  rcases he with rfl | rfl
  · exact ⟨"a.json".data, by decide⟩
  · exact ⟨"manifest.json".data, by decide⟩

/-- C2: when the entries do not all share one top-level path segment,
`run` derives the folder name from the zip file's name minus its
extension, creates it (successfully even when it already exists), and
extracts every entry inside it. -/
theorem claim_C2 (zipPath : FPath) (entries : List FPath)
    (h : ¬ sharesTop entries) :
    installPlan zipPath entries = .subfolder (splitextRoot (basename zipPath)) ∧
    writtenPaths zipPath entries
      = entries.map (fun e => splitextRoot (basename zipPath) ++ '/' :: e) ∧
    ∀ s : FsState, ∃ s2, installOnce zipPath entries s
      = some ([splitextRoot (basename zipPath)], s2) := by
  have htop : hasTopLevelFolder entries = false := by
    cases hb : hasTopLevelFolder entries
    · rfl
    · exfalso
      apply h
      cases entries with
      | nil => simp [hasTopLevelFolder] at hb
      | cons first rest =>
        simp only [hasTopLevelFolder] at hb
        by_cases hlen : 1 < (splitOnChar '/' first).length
        · rw [if_pos hlen, List.all_eq_true] at hb
          have hmem : '/' ∈ first := (one_lt_length_splitOnChar '/' first).mp hlen
          obtain ⟨t0, ht0⟩ := exists_takeWhile_decomp '/' first hmem
          refine ⟨(splitOnChar '/' first).headI,
            not_mem_headI_splitOnChar '/' first, ?_⟩
          intro e he
          rcases List.mem_cons.mp he with rfl | he'
          · refine ⟨t0, ?_⟩
            rw [headI_splitOnChar]
            exact ht0
          · obtain ⟨t, ht⟩ := isPrefixOf_eq_true.mp (hb e he')
            exact ⟨t, by rw [ht]; simp⟩
        · rw [if_neg hlen] at hb
          exact absurd hb (by simp)
  refine ⟨by simp [installPlan, htop], by simp [writtenPaths, installPlan, htop], ?_⟩
  intro s
  obtain ⟨s2, hs2, _⟩ := makedirs_existOk_true (splitextRoot (basename zipPath)) s
  exact ⟨s2, by simp [installOnce, installPlan, htop, hs2]⟩

/-- C2 witness: an archive with two bare top-level files `a.json`,
`b.json` named `loose.zip` is installed into a created `loose` folder. -/
theorem claim_C2_witness :
    installPlan ("loose.zip".data) ["a.json".data, "b.json".data]
      = .subfolder ("loose".data) := by
  have h : ¬ sharesTop ["a.json".data, "b.json".data] := by
    rintro ⟨seg, hns, hall⟩
    obtain ⟨t, ht⟩ := hall ("a.json".data) (by simp)
    have hmem : ('/' : Char) ∈ "a.json".data := by
      rw [ht]
      exact List.mem_append_right _ (List.mem_cons_self _ _)
    revert hmem
    decide
  exact ((claim_C2 ("loose.zip".data) _ h).1).trans (by decide)

/-- C3 counterexample: an archive with exactly one entry whose path
contains a separator is treated by `_has_top_level_folder` as having a
shared top-level folder, so `run` extracts it directly instead of
creating `pack` from `pack.zip`. -/
theorem claim_C3_counterexample :
    hasTopLevelFolder ["Alone/file.json".data] = true ∧
    installPlan ("pack.zip".data) ["Alone/file.json".data] = .direct ∧
    InstallPlan.direct ≠ .subfolder (splitextRoot (basename ("pack.zip".data))) := by
  decide

/-- C3 amended: an archive with exactly one entry is treated as not
having a shared top-level folder exactly when that entry contains no
separator, in which case the archive-name folder is created and the entry
extracted inside it; a single entry containing a separator is treated as
having a shared top-level folder and is extracted directly. -/
theorem claim_C3_amended (zipPath e : FPath) :
    (('/' ∉ e) → hasTopLevelFolder [e] = false ∧
      installPlan zipPath [e] = .subfolder (splitextRoot (basename zipPath)) ∧
      writtenPaths zipPath [e] = [splitextRoot (basename zipPath) ++ '/' :: e]) ∧
    (('/' ∈ e) → hasTopLevelFolder [e] = true ∧
      installPlan zipPath [e] = .direct) := by
  constructor
  · intro h
    have hlen : ¬ 1 < (splitOnChar '/' e).length := by
      rw [one_lt_length_splitOnChar]
      exact h
    have htop : hasTopLevelFolder [e] = false := by
      simp only [hasTopLevelFolder, if_neg hlen]
    exact ⟨htop, by simp [installPlan, htop],
      by simp [writtenPaths, installPlan, htop]⟩
  · intro h
    have hlen : 1 < (splitOnChar '/' e).length :=
      (one_lt_length_splitOnChar '/' e).mpr h
    have htop : hasTopLevelFolder [e] = true := by
      simp only [hasTopLevelFolder, if_pos hlen, List.all_nil]
    exact ⟨htop, by simp [installPlan, htop]⟩

/-- C3 witness: a single separator-free entry `readme.txt` in `m.zip`
takes the derived-name branch. -/
theorem claim_C3_witness :
    hasTopLevelFolder ["readme.txt".data] = false ∧
    installPlan ("m.zip".data) ["readme.txt".data]
      = .subfolder (splitextRoot (basename ("m.zip".data))) ∧
    writtenPaths ("m.zip".data) ["readme.txt".data]
      = [splitextRoot (basename ("m.zip".data)) ++ '/' :: "readme.txt".data] :=
  (claim_C3_amended ("m.zip".data) ("readme.txt".data)).1 (by decide)

/-- C4: the scan lists exactly the immediate subdirectories, sorted
lexicographically by folder name, and a subdirectory without a manifest
file is labelled with its bare folder name. -/
theorem claim_C4 (items : List FsItem) :
    (list_mods items).length = (items.filter (fun it => it.isDir)).length ∧
    (list_mods items).Pairwise (fun p q => p.2 ≤ q.2) ∧
    ∀ it ∈ items, it.isDir = true → it.manifest = .absent →
      (it.name, it.name) ∈ list_mods items := by
  refine ⟨list_mods_length items, ?_, ?_⟩
  · rw [list_mods, List.pairwise_map]
    exact List.sorted_insertionSort byName _
  · intro it hit hdir hman
    have h3 := mem_list_mods_of_mem hit hdir
    rw [hman] at h3
    exact h3

/-- C4 witness: a listing with two subdirectories (one file filtered out),
both manifest-less, contains the bare-name entry for `Alpha`. -/
theorem claim_C4_witness :
    ("Alpha", "Alpha") ∈ list_mods
      [⟨"Beta", true, .absent⟩, ⟨"Alpha", true, .absent⟩,
       ⟨"notes.txt", false, .absent⟩] :=
  (claim_C4 _).2.2 ⟨"Alpha", true, .absent⟩ (by simp) rfl rfl

/-- C5 counterexample: the update key `"Nexus:"` starts with the
recognized prefix, yet the produced label is the bare name, not the name
suffixed with the parenthesized part after the last colon. -/
theorem claim_C5_counterexample :
    isNexusKey (.str ("Nexus:".data)) = true ∧
    get_mod_info "SomeFolder"
        (.parsed ⟨some "Mod Name", [.str ("Nexus:".data)]⟩) = "Mod Name" ∧
    "Mod Name" ≠ "Mod Name" ++ " (" ++ String.mk (afterLastColon ("Nexus:".data)) ++ ")" := by
  decide

/-- C5 amended: for a parsed manifest the label is the name field (or the
fixed placeholder when absent), suffixed with the parenthesized substring
after the last colon of the first update key that is a string with the
recognized prefix — but only when that substring is non-empty; with no
matching key, or a first matching key whose after-colon part is empty, the
label is the bare name. -/
theorem claim_C5_amended (folderName : String) (nameField : Option String)
    (keys : List UpdateKey) :
    get_mod_info folderName (.parsed ⟨nameField, keys⟩) =
      match keys.find? isNexusKey with
      | some (.str s) =>
        if (afterLastColon s).isEmpty then nameField.getD "未知名称"
        else nameField.getD "未知名称" ++ " (" ++ String.mk (afterLastColon s) ++ ")"
      | _ => nameField.getD "未知名称" := by
  rcases findNexusId_spec keys with ⟨s, hf, hid⟩ | ⟨hf, hid⟩
  · rw [hf]
    simp only [get_mod_info, hid]
  · rw [hf]
    simp [get_mod_info, hid]

/-- C5 amended witness: a manifest whose update keys are a non-string, a
non-matching string and `"Nexus:2400"` is labelled with the id `2400`. -/
theorem claim_C5_witness :
    get_mod_info "F" (.parsed ⟨some "Content Patcher",
        [.other, .str ("GitHub:x/y".data), .str ("Nexus:2400".data)]⟩)
      = "Content Patcher (2400)" := by
  have h := claim_C5_amended "F" (some "Content Patcher")
    [.other, .str ("GitHub:x/y".data), .str ("Nexus:2400".data)]
  rw [h]
  decide

/-- C6: `install_mod` reports `NotFound` exactly when the path does not
exist and `InvalidArchive` exactly when it exists but is not a valid zip;
in both failure cases the target folder is unchanged. -/
theorem claim_C6 (pathExists isZipFile : Bool) (zipPath : FPath)
    (entries : List FPath) (s : FsState) :
    ((install_mod pathExists isZipFile zipPath entries s).1 = some .NotFound
      ↔ pathExists = false) ∧
    ((install_mod pathExists isZipFile zipPath entries s).1 = some .InvalidArchive
      ↔ (pathExists = true ∧ isZipFile = false)) ∧
    (((install_mod pathExists isZipFile zipPath entries s).1 = some .NotFound ∨
      (install_mod pathExists isZipFile zipPath entries s).1 = some .InvalidArchive) →
      (install_mod pathExists isZipFile zipPath entries s).2 = s) := by
  cases pathExists
  · simp [install_mod]
  · cases isZipFile
    · simp [install_mod]
    · simp only [install_mod]
      cases h : installOnce zipPath entries s with
      | none => simp [h]
      | some v =>
        cases v
        simp [h]

/-- C6 witness: a missing archive path gives `NotFound` and leaves the
target's directory list untouched. -/
theorem claim_C6_witness :
    (install_mod false true ("m.zip".data) [] ⟨[]⟩).1 = some .NotFound ∧
    (install_mod false true ("m.zip".data) [] ⟨[]⟩).2 = ⟨[]⟩ := by
  have h := claim_C6 false true ("m.zip".data) [] ⟨[]⟩
  exact ⟨h.1.mpr rfl, h.2.2 (Or.inl (h.1.mpr rfl))⟩

/-- C7: deletion handles the selected entries one by one — an existing
directory whose removal succeeds is deleted, an absent one is reported not
found, and each entry's outcome is independent of the others, so no
failure stops the remaining entries. -/
theorem claim_C7 :
    (∀ entries : List DelEntry,
      (delete_selected_mods entries).length = entries.length) ∧
    (∀ (pre : List DelEntry) (e : DelEntry) (post : List DelEntry),
      delete_selected_mods (pre ++ e :: post)
        = delete_selected_mods pre ++ deleteOne e :: delete_selected_mods post) ∧
    (∀ e : DelEntry, e.isDir = true → e.rmtreeOk = true →
      deleteOne e = .deleted) ∧
    (∀ e : DelEntry, e.isDir = false → deleteOne e = .notFound) := by
  refine ⟨?_, ?_, ?_, ?_⟩
  · intro entries
    simp [delete_selected_mods_eq_map]
  · intro pre e post
    simp [delete_selected_mods_eq_map]
  · intro e h1 h2
    simp [deleteOne, h1, h2]
  · intro e h1
    simp [deleteOne, h1]

/-- C7 witness: an absent middle entry is reported not found while the
entries before and after it are still processed. -/
theorem claim_C7_witness :
    delete_selected_mods [⟨true, true⟩, ⟨false, true⟩, ⟨true, true⟩]
      = delete_selected_mods [⟨true, true⟩] ++ deleteOne ⟨false, true⟩ ::
          delete_selected_mods [⟨true, true⟩] ∧
    deleteOne ⟨false, true⟩ = .notFound := by
  have h := claim_C7
  exact ⟨h.2.1 [⟨true, true⟩] ⟨false, true⟩ [⟨true, true⟩],
    h.2.2.2 ⟨false, true⟩ rfl⟩

/-- C8: a mod folder whose manifest fails to parse is labelled with its
folder name plus an error indicator carrying the parse failure text, and
the scan still returns one entry per subdirectory, the broken one
included. -/
theorem claim_C8 (items : List FsItem) (folderName msg : String) :
    get_mod_info folderName (.parseError msg)
      = folderName ++ " (解析manifest失败: " ++ msg ++ ")" ∧
    (list_mods items).length = (items.filter (fun it => it.isDir)).length ∧
    ∀ it ∈ items, it.isDir = true → it.manifest = .parseError msg →
      (it.name ++ " (解析manifest失败: " ++ msg ++ ")", it.name) ∈ list_mods items := by
  refine ⟨rfl, list_mods_length items, ?_⟩
  intro it hit hdir hman
  have h3 := mem_list_mods_of_mem hit hdir
  rw [hman] at h3
  exact h3

/-- C8 witness: one broken-manifest folder is listed with the error label
beside an intact folder. -/
theorem claim_C8_witness :
    ("Broken (解析manifest失败: bad json)", "Broken") ∈ list_mods
      [⟨"Broken", true, .parseError "bad json"⟩, ⟨"Fine", true, .absent⟩] := by
  have h := claim_C8
    [⟨"Broken", true, .parseError "bad json"⟩, ⟨"Fine", true, .absent⟩] "X" "bad json"
  exact h.2.2 ⟨"Broken", true, .parseError "bad json"⟩ (by simp) rfl rfl

/-- C9: installing the same archive into the same target twice resolves
to the same destination folder names both times, and the second run
succeeds even though the destination already exists. -/
theorem claim_C9 (zipPath : FPath) (entries : List FPath) (s : FsState) :
    ∃ dest s1 s2,
      installOnce zipPath entries s = some (dest, s1) ∧
      installOnce zipPath entries s1 = some (dest, s2) := by
  cases hp : installPlan zipPath entries with
  | direct =>
    refine ⟨(entries.map topSegment).dedup, ⟨extractTopDirs entries s.dirs⟩,
      ⟨extractTopDirs entries (extractTopDirs entries s.dirs)⟩, ?_, ?_⟩ <;>
      simp [installOnce, hp]
  | subfolder n =>
    obtain ⟨s1, hs1, _⟩ := makedirs_existOk_true n s
    obtain ⟨s2, hs2, _⟩ := makedirs_existOk_true n s1
    exact ⟨[n], s1, s2, by simp [installOnce, hp, hs1], by simp [installOnce, hp, hs2]⟩

/-- C10: an archive with no entries is not treated as having a top-level
folder (the empty list is guarded), so the derived-name branch runs,
creates the archive-name folder with nothing extracted into it, and
succeeds. -/
theorem claim_C10 (zipPath : FPath) (s : FsState) :
    hasTopLevelFolder [] = false ∧
    installPlan zipPath [] = .subfolder (splitextRoot (basename zipPath)) ∧
    writtenPaths zipPath [] = [] ∧
    ∃ s2, installOnce zipPath [] s = some ([splitextRoot (basename zipPath)], s2) ∧
      splitextRoot (basename zipPath) ∈ s2.dirs := by
  refine ⟨rfl, by simp [installPlan, hasTopLevelFolder],
    by simp [writtenPaths, installPlan, hasTopLevelFolder], ?_⟩
  obtain ⟨s2, hs2, hmem⟩ := makedirs_existOk_true (splitextRoot (basename zipPath)) s
  exact ⟨s2, by simp [installOnce, installPlan, hasTopLevelFolder, hs2], hmem⟩

end StardewMod
